import Mathlib

/-!
Verification of the Teams assignment downloader (`TeamsAssignmentDownloader.py`).

Strings are modelled as `List Char`.  Each Python function of the program is
embedded as an executable Lean definition that follows the source line by
line; the theorems below settle the specification claims against these
definitions.
-/

/-! ## Name sanitizer (`sanitize_filename`) -/

/-- The Windows-reserved characters replaced by the sanitizer
(source line `invalid = '<>:"/\\|?*'`). -/
def invalidChars : List Char := ['<', '>', ':', '"', '/', '\\', '|', '?', '*']

/-- Whitespace characters removed by Python `str.strip()` (ASCII part; the
claims only concern these). -/
def isWs (c : Char) : Bool :=
  c = ' ' || c = '\t' || c = '\n' || c = '\r' || c = '\x0b' || c = '\x0c'

/-- One pass of Python `sanitized.replace("  ", " ")`: replace non-overlapping
occurrences of two spaces by one, scanning left to right. -/
def replaceDouble : List Char → List Char
  | [] => []
  | [c] => [c]
  | a :: b :: rest =>
    if a = ' ' ∧ b = ' ' then ' ' :: replaceDouble rest
    else a :: replaceDouble (b :: rest)

/-- Python `"  " in sanitized`: does the string contain two consecutive
spaces? -/
def hasDouble : List Char → Bool
  | [] => false
  | [_] => false
  | a :: b :: rest => (decide (a = ' ') && decide (b = ' ')) || hasDouble (b :: rest)

/-- The loop `while "  " in sanitized: sanitized = sanitized.replace("  ", " ")`,
run with enough fuel (each iteration strictly shrinks the string, so
`length` iterations always reach the fixed point). -/
def collapseFuel : Nat → List Char → List Char
  | 0, s => s
  | fuel + 1, s => if hasDouble s then collapseFuel fuel (replaceDouble s) else s

/-- Collapse runs of spaces: the space-collapsing while-loop of
`sanitize_filename`. -/
def collapseSpaces (s : List Char) : List Char := collapseFuel s.length s

/-- Python `str.rstrip`-style removal of trailing characters satisfying `p`. -/
def rstripWhile (p : Char → Bool) : List Char → List Char
  | [] => []
  | c :: rest =>
    match rstripWhile p rest with
    | [] => if p c then [] else [c]
    | d :: r => c :: d :: r

/-- Python `str.strip()`: remove leading and trailing whitespace. -/
def stripWs (s : List Char) : List Char := rstripWhile isWs (s.dropWhile isWs)

/-- Embedding of `sanitize_filename` (source lines 24-33): replace reserved
characters by spaces, replace underscores by spaces, collapse double spaces,
strip surrounding whitespace, strip trailing dots, and fall back to
`"unnamed"` when the result is empty. -/
def sanitize_filename (name : List Char) : List Char :=
  let s1 := name.map (fun c => if c ∈ invalidChars then ' ' else c)
  let s2 := s1.map (fun c => if c = '_' then ' ' else c)
  let s3 := collapseSpaces s2
  let s4 := rstripWhile (fun c => c = '.') (stripWs s3)
  if s4 = [] then "unnamed".toList else s4

example : sanitize_filename "Jane_Doe".toList = "Jane Doe".toList := by decide
example : sanitize_filename "a:b".toList = "a b".toList := by decide
example : sanitize_filename "a   b..".toList = "a b".toList := by decide
example : sanitize_filename "...".toList = "unnamed".toList := by decide
example : sanitize_filename "a .".toList = ['a', ' '] := by decide

/-! ### Lemmas about the sanitizer's building blocks -/

theorem replaceDouble_length_le : ∀ l : List Char, (replaceDouble l).length ≤ l.length
  | [] => by simp [replaceDouble]
  | [c] => by simp [replaceDouble]
  | a :: b :: rest => by
    have h1 := replaceDouble_length_le rest
    have h2 := replaceDouble_length_le (b :: rest)
    simp only [replaceDouble]
    split
    · simp only [List.length_cons]
      omega
    · simp only [List.length_cons] at h2 ⊢
      omega

theorem replaceDouble_length_lt :
    ∀ l : List Char, hasDouble l = true → (replaceDouble l).length < l.length
  | [] => by intro h; simp [hasDouble] at h
  | [c] => by intro h; simp [hasDouble] at h
  | a :: b :: rest => by
    intro h
    simp only [replaceDouble]
    split
    · have := replaceDouble_length_le rest
      simp only [List.length_cons]
      omega
    · rename_i hcond
      have hbr : hasDouble (b :: rest) = true := by
        simp only [hasDouble, Bool.or_eq_true, Bool.and_eq_true, decide_eq_true_eq] at h
        rcases h with ⟨h1, h2⟩ | h
        · exact absurd ⟨h1, h2⟩ hcond
        · exact h
      have := replaceDouble_length_lt (b :: rest) hbr
      simp only [List.length_cons] at this ⊢
      omega

theorem hasDouble_cons (c : Char) (rest : List Char) (h : hasDouble rest = true) :
    hasDouble (c :: rest) = true := by
  match rest with
  | [] => simp [hasDouble] at h
  | b :: rest' =>
    simp only [hasDouble]
    rw [h]
    simp

theorem hasDouble_collapseFuel :
    ∀ (fuel : Nat) (s : List Char), s.length ≤ fuel → hasDouble (collapseFuel fuel s) = false
  | 0, s => by
    intro h
    have : s = [] := List.length_eq_zero.mp (Nat.le_zero.mp h)
    subst this
    simp [collapseFuel, hasDouble]
  | fuel + 1, s => by
    intro h
    simp only [collapseFuel]
    split
    · rename_i hd
      exact hasDouble_collapseFuel fuel (replaceDouble s)
        (by have := replaceDouble_length_lt s hd; omega)
    · rename_i hd
      exact Bool.eq_false_iff.mpr hd

theorem collapseSpaces_noDouble (s : List Char) : hasDouble (collapseSpaces s) = false :=
  hasDouble_collapseFuel s.length s (Nat.le_refl _)

theorem collapseFuel_eq_self (fuel : Nat) (s : List Char) (h : hasDouble s = false) :
    collapseFuel fuel s = s := by
  cases fuel with
  | zero => rfl
  | succ n => simp [collapseFuel, h]

theorem mem_replaceDouble : ∀ (l : List Char) (c : Char), c ∈ replaceDouble l → c ∈ l
  | [], c => by simp [replaceDouble]
  | [d], c => by simp [replaceDouble]
  | a :: b :: rest, c => by
    simp only [replaceDouble]
    split
    · rename_i hab
      intro hc
      rcases List.mem_cons.mp hc with h | h
      · subst h
        simp [hab.1]
      · exact List.mem_cons_of_mem _ (List.mem_cons_of_mem _ (mem_replaceDouble rest c h))
    · intro hc
      rcases List.mem_cons.mp hc with h | h
      · subst h
        exact List.mem_cons_self _ _
      · exact List.mem_cons_of_mem _ (mem_replaceDouble (b :: rest) c h)

theorem mem_collapseFuel :
    ∀ (fuel : Nat) (s : List Char) (c : Char), c ∈ collapseFuel fuel s → c ∈ s
  | 0, s, c => by simp [collapseFuel]
  | fuel + 1, s, c => by
    simp only [collapseFuel]
    split
    · intro h
      exact mem_replaceDouble s c (mem_collapseFuel fuel (replaceDouble s) c h)
    · exact id

theorem rstripWhile_append (p : Char → Bool) :
    ∀ l : List Char, ∃ t, rstripWhile p l ++ t = l
  | [] => ⟨[], rfl⟩
  | c :: rest => by
    obtain ⟨t, ht⟩ := rstripWhile_append p rest
    simp only [rstripWhile]
    cases h : rstripWhile p rest with
    | nil =>
      by_cases hp : p c = true
      · simp only [if_pos hp, List.nil_append]
        exact ⟨c :: rest, rfl⟩
      · simp only [if_neg hp, List.cons_append, List.nil_append]
        exact ⟨rest, rfl⟩
    | cons d r =>
      refine ⟨t, ?_⟩
      rw [h] at ht
      simp only [List.cons_append] at ht ⊢
      rw [ht]

theorem mem_rstripWhile (p : Char → Bool) (l : List Char) (c : Char)
    (hc : c ∈ rstripWhile p l) : c ∈ l := by
  obtain ⟨t, ht⟩ := rstripWhile_append p l
  rw [← ht]
  exact List.mem_append_left t hc

theorem hasDouble_append :
    ∀ (t u : List Char), hasDouble t = true → hasDouble (t ++ u) = true
  | [], _, h => by simp [hasDouble] at h
  | [c], _, h => by simp [hasDouble] at h
  | a :: b :: rest, u, h => by
    simp only [hasDouble, Bool.or_eq_true] at h
    simp only [List.cons_append, hasDouble, Bool.or_eq_true]
    rcases h with h1 | h2
    · exact Or.inl h1
    · right
      have := hasDouble_append (b :: rest) u h2
      simpa only [List.cons_append] using this

theorem hasDouble_rstripWhile (p : Char → Bool) (l : List Char)
    (h : hasDouble l = false) : hasDouble (rstripWhile p l) = false := by
  obtain ⟨t, ht⟩ := rstripWhile_append p l
  cases hbd : hasDouble (rstripWhile p l) with
  | false => rfl
  | true =>
    have := hasDouble_append _ t hbd
    rw [ht, h] at this
    exact Bool.noConfusion this

theorem hasDouble_tail (c : Char) (rest : List Char) (h : hasDouble (c :: rest) = false) :
    hasDouble rest = false := by
  cases hbd : hasDouble rest with
  | false => rfl
  | true => rw [hasDouble_cons c rest hbd] at h; exact Bool.noConfusion h

theorem hasDouble_dropWhile (p : Char → Bool) :
    ∀ l : List Char, hasDouble l = false → hasDouble (l.dropWhile p) = false
  | [], h => by simpa using h
  | c :: rest, h => by
    rw [List.dropWhile_cons]
    split
    · exact hasDouble_dropWhile p rest (hasDouble_tail c rest h)
    · exact h

theorem rstripWhile_getLast (p : Char → Bool) :
    ∀ (l : List Char) (c : Char), (rstripWhile p l).getLast? = some c → p c = false
  | [], c => by simp [rstripWhile]
  | d :: rest, c => by
    simp only [rstripWhile]
    cases h : rstripWhile p rest with
    | nil =>
      by_cases hp : p d = true
      · simp only [if_pos hp]
        intro hc
        exact Option.noConfusion hc
      · simp only [if_neg hp]
        intro hc
        injection hc with hdc
        subst hdc
        exact Bool.eq_false_iff.mpr hp
    | cons e r =>
      intro hc
      rw [List.getLast?_cons_cons] at hc
      exact rstripWhile_getLast p rest c (h ▸ hc)

theorem dropWhile_head (p : Char → Bool) :
    ∀ (l : List Char) (c : Char), (l.dropWhile p).head? = some c → p c = false
  | [], c => by simp
  | d :: rest, c => by
    rw [List.dropWhile_cons]
    split
    · exact dropWhile_head p rest c
    · rename_i hp
      intro hc
      simp only [List.head?_cons, Option.some.injEq] at hc
      subst hc
      exact Bool.eq_false_iff.mpr hp

theorem rstripWhile_head (p : Char → Bool) (l : List Char) (c : Char) (r : List Char)
    (h : rstripWhile p l = c :: r) : l.head? = some c := by
  obtain ⟨t, ht⟩ := rstripWhile_append p l
  rw [h] at ht
  rw [← ht]
  rfl

theorem map_eq_self {f : Char → Char} :
    ∀ l : List Char, (∀ c ∈ l, f c = c) → l.map f = l
  | [], _ => rfl
  | c :: rest, h => by
    simp only [List.map_cons]
    rw [h c (List.mem_cons_self c rest),
      map_eq_self rest (fun d hd => h d (List.mem_cons_of_mem c hd))]

theorem dropWhile_eq_self (p : Char → Bool) :
    ∀ l : List Char, (∀ c, l.head? = some c → p c = false) → l.dropWhile p = l
  | [], _ => rfl
  | c :: rest, h => by
    rw [List.dropWhile_cons]
    simp [h c rfl]

theorem rstripWhile_eq_self (p : Char → Bool) :
    ∀ l : List Char, (∀ c, l.getLast? = some c → p c = false) → rstripWhile p l = l
  | [], _ => rfl
  | c :: rest, h => by
    simp only [rstripWhile]
    cases rest with
    | nil =>
      simp [rstripWhile, h c rfl]
    | cons b r =>
      have hrec : rstripWhile p (b :: r) = b :: r :=
        rstripWhile_eq_self p (b :: r)
          (fun d hd => h d (by rw [List.getLast?_cons_cons]; exact hd))
      rw [hrec]

/-! ### Properties of `sanitize_filename` -/

theorem mem_maps (s : List Char) :
    ∀ c ∈ (s.map (fun c => if c ∈ invalidChars then ' ' else c)).map
        (fun c => if c = '_' then ' ' else c), c ∉ invalidChars ∧ c ≠ '_' := by
  intro c hc
  simp only [List.map_map, List.mem_map, Function.comp] at hc
  obtain ⟨a, -, rfl⟩ := hc
  by_cases h1 : a ∈ invalidChars
  · rw [if_pos h1]
    decide
  · rw [if_neg h1]
    by_cases h2 : a = '_'
    · rw [if_pos h2]
      decide
    · rw [if_neg h2]
      exact ⟨h1, h2⟩

theorem sanitize_mem (s : List Char) :
    ∀ c ∈ sanitize_filename s, c ∉ invalidChars ∧ c ≠ '_' := by
  intro c hc
  simp only [sanitize_filename] at hc
  split at hc
  · exact (by decide : ∀ c ∈ "unnamed".toList, c ∉ invalidChars ∧ c ≠ '_') c hc
  · have h1 := mem_rstripWhile _ _ _ hc
    rw [stripWs] at h1
    have h2 := mem_rstripWhile _ _ _ h1
    have h3 : c ∈ collapseSpaces ((s.map fun c => if c ∈ invalidChars then ' ' else c).map
        fun c => if c = '_' then ' ' else c) := (List.dropWhile_sublist _).mem h2
    have h4 := mem_collapseFuel _ _ _ h3
    exact mem_maps s c h4

theorem sanitize_noDouble (s : List Char) : hasDouble (sanitize_filename s) = false := by
  simp only [sanitize_filename]
  split
  · decide
  · apply hasDouble_rstripWhile
    rw [stripWs]
    apply hasDouble_rstripWhile
    apply hasDouble_dropWhile
    exact collapseSpaces_noDouble _

theorem sanitize_getLast (s : List Char) (c : Char) :
    (sanitize_filename s).getLast? = some c → c ≠ '.' := by
  simp only [sanitize_filename]
  split
  · intro h
    have hd : c = 'd' := by
      have : ("unnamed".toList).getLast? = some 'd' := by decide
      rw [this] at h
      injection h with h'
      exact h'.symm
    subst hd
    decide
  · intro h
    have := rstripWhile_getLast _ _ _ h
    simpa using this

theorem sanitize_ne_nil (s : List Char) : sanitize_filename s ≠ [] := by
  simp only [sanitize_filename]
  split
  · decide
  · assumption

theorem sanitize_head (s : List Char) (c : Char) :
    (sanitize_filename s).head? = some c → isWs c = false := by
  simp only [sanitize_filename]
  split
  · intro h
    have : ("unnamed".toList).head? = some 'u' := by decide
    rw [this] at h
    injection h with h'
    subst h'
    decide
  · intro h
    cases hres : rstripWhile (fun c => decide (c = '.'))
        (stripWs (collapseSpaces ((s.map fun c => if c ∈ invalidChars then ' ' else c).map
          fun c => if c = '_' then ' ' else c))) with
    | nil => rw [hres] at h; exact Option.noConfusion h
    | cons d r =>
      rw [hres] at h
      injection h with h'
      subst h'
      have hh := rstripWhile_head _ _ _ _ hres
      rw [stripWs] at hh
      cases hres2 : rstripWhile isWs ((collapseSpaces ((s.map fun c => if c ∈ invalidChars then ' ' else c).map
          fun c => if c = '_' then ' ' else c)).dropWhile isWs) with
      | nil => rw [hres2] at hh; exact Option.noConfusion hh
      | cons e r2 =>
        rw [hres2] at hh
        injection hh with hh'
        subst hh'
        have hh2 := rstripWhile_head _ _ _ _ hres2
        exact dropWhile_head _ _ _ hh2

/-- Does the string end in a whitespace character? -/
def endsInWs (l : List Char) : Bool :=
  match l.getLast? with
  | some c => isWs c
  | none => false

/-- C1 (amended): the sanitizer's output contains none of the reserved
characters, contains no two consecutive spaces, does not end in a dot, and is
non-empty.  (The original claim also said the output never ends in a space;
that part is refuted by `claim1_counterexample`.) -/
theorem claim1_sanitizer_invariants (s : List Char) :
    (sanitize_filename s).all (fun c => !decide (c ∈ invalidChars)) = true ∧
    hasDouble (sanitize_filename s) = false ∧
    (sanitize_filename s).getLast? ≠ some '.' ∧
    sanitize_filename s ≠ [] := by
  refine ⟨?_, sanitize_noDouble s, ?_, sanitize_ne_nil s⟩
  · rw [List.all_eq_true]
    intro c hc
    simp only [Bool.not_eq_true', decide_eq_false_iff_not]
    exact (sanitize_mem s c hc).1
  · intro h
    exact sanitize_getLast s '.' h rfl

/-- C1 counterexample: on the input `"a ."` the sanitizer returns `"a "`,
which ends in a space, refuting the claim that sanitized names never end in
a space. -/
theorem claim1_counterexample :
    (sanitize_filename ("a .".toList)).getLast? = some ' ' := by decide

/-- C2 (amended): the sanitizer is idempotent on every input whose sanitized
form does not end in a whitespace character. -/
theorem claim2_sanitize_idem (s : List Char)
    (h : endsInWs (sanitize_filename s) = false) :
    sanitize_filename (sanitize_filename s) = sanitize_filename s := by
  have hlastWs : ∀ c, (sanitize_filename s).getLast? = some c → isWs c = false := by
    intro c hc
    rw [endsInWs, hc] at h
    exact h
  have hmem := sanitize_mem s
  have hnd := sanitize_noDouble s
  have hlast := sanitize_getLast s
  have hhead := sanitize_head s
  have hne := sanitize_ne_nil s
  have e1 : (sanitize_filename s).map (fun c => if c ∈ invalidChars then ' ' else c)
      = sanitize_filename s :=
    map_eq_self _ (fun c hc => if_neg ((hmem c hc).1))
  have e2 : (sanitize_filename s).map (fun c => if c = '_' then ' ' else c)
      = sanitize_filename s :=
    map_eq_self _ (fun c hc => if_neg ((hmem c hc).2))
  have e3 : collapseSpaces (sanitize_filename s) = sanitize_filename s :=
    collapseFuel_eq_self _ _ hnd
  have e4 : (sanitize_filename s).dropWhile isWs = sanitize_filename s :=
    dropWhile_eq_self isWs _ (fun c hc => hhead c hc)
  have e5 : rstripWhile isWs (sanitize_filename s) = sanitize_filename s :=
    rstripWhile_eq_self isWs _ hlastWs
  have e6 : rstripWhile (fun c => decide (c = '.')) (sanitize_filename s)
      = sanitize_filename s :=
    rstripWhile_eq_self _ _ (fun c hc => decide_eq_false (hlast c hc))
  conv_lhs => rw [sanitize_filename]
  simp only [e1, e2, e3]
  rw [stripWs, e4, e5, e6, if_neg hne]

/-- Witness for C2 (amended) at the concrete input `"Jane_Doe"`. -/
theorem claim2_sanitize_idem_witness :
    endsInWs (sanitize_filename ("Jane_Doe".toList)) = false ∧
    sanitize_filename (sanitize_filename ("Jane_Doe".toList))
      = sanitize_filename ("Jane_Doe".toList) :=
  ⟨by decide, claim2_sanitize_idem ("Jane_Doe".toList) (by decide)⟩

/-- C2 counterexample: sanitizing `"a ."` twice differs from sanitizing it
once (`"a "` versus `"a"`), refuting idempotence as originally claimed. -/
theorem claim2_counterexample :
    sanitize_filename (sanitize_filename ("a .".toList))
      ≠ sanitize_filename ("a .".toList) := by decide

/-! ## Unique path resolver (`choose_unique_filename`)

The filesystem state of the output folder is modelled as the list `ex` of
paths that currently exist.  `os.path.join(folder, name)` is modelled for a
folder without a trailing separator and a relative name. -/

/-- Model of `os.path.join(folder, name)`. -/
def pathJoin (folder name : List Char) : List Char := folder ++ '/' :: name

/-- Decimal digit characters, as produced by Python `str(i)`. -/
def digitChar (d : Nat) : Char :=
  if d = 0 then '0' else if d = 1 then '1' else if d = 2 then '2'
  else if d = 3 then '3' else if d = 4 then '4' else if d = 5 then '5'
  else if d = 6 then '6' else if d = 7 then '7' else if d = 8 then '8'
  else '9'

/-- Decimal rendering of a natural number, most significant digit first,
with explicit fuel (the recursion divides by ten). -/
def natReprAux : Nat → Nat → List Char
  | 0, _ => []
  | fuel + 1, n =>
    if n < 10 then [digitChar n]
    else natReprAux fuel (n / 10) ++ [digitChar (n % 10)]

/-- Model of Python `str(i)` for a natural number. -/
def natRepr (n : Nat) : List Char := natReprAux (n + 1) n

/-- The candidate file name `f"{base_name} ({i}){ext}"` tried by
`choose_unique_filename` (source line 43). -/
def numberedName (base ext : List Char) (i : Nat) : List Char :=
  base ++ [' ', '('] ++ natRepr i ++ [')'] ++ ext

/-- The `while True` loop of `choose_unique_filename` (source lines 41-47),
with explicit fuel.  The fuel used by `choose_unique_filename` below is
always sufficient, because the candidate names are pairwise distinct and the
list of existing paths is finite. -/
def chooseLoop (base ext folder : List Char) (ex : List (List Char)) :
    Nat → Nat → List Char
  | 0, i => pathJoin folder (numberedName base ext i)
  | fuel + 1, i =>
    let path := pathJoin folder (numberedName base ext i)
    if path ∈ ex then chooseLoop base ext folder ex fuel (i + 1) else path

/-- Embedding of `choose_unique_filename` (source lines 36-47): return
`folder/base+ext` if it does not exist, otherwise the first free
`folder/base (i)+ext` for `i = 2, 3, ...`. -/
def choose_unique_filename (base ext folder : List Char) (ex : List (List Char)) :
    List Char :=
  if pathJoin folder (base ++ ext) ∈ ex then
    chooseLoop base ext folder ex (ex.length + 1) 2
  else pathJoin folder (base ++ ext)

example : natRepr 2 = ['2'] := by decide
example : natRepr 12 = ['1', '2'] := by decide
example : numberedName "f".toList ".txt".toList 2 = "f (2).txt".toList := by decide
example :
    choose_unique_filename "f".toList ".txt".toList "o".toList
      ["o/f.txt".toList, "o/f (2).txt".toList] = "o/f (3).txt".toList := by decide

/-! ### Correctness of the resolver -/

/-- Numeric value of a digit character. -/
def digitVal (c : Char) : Nat := c.toNat - 48

/-- Value of a decimal digit string, most significant digit first. -/
def digitsToNat (ds : List Char) : Nat := ds.foldl (fun a c => a * 10 + digitVal c) 0

theorem digitVal_digitChar : ∀ d, d < 10 → digitVal (digitChar d) = d := by decide

theorem digitsToNat_append_singleton (xs : List Char) (c : Char) :
    digitsToNat (xs ++ [c]) = 10 * digitsToNat xs + digitVal c := by
  simp only [digitsToNat, List.foldl_append, List.foldl_cons, List.foldl_nil]
  omega

theorem digitsToNat_natReprAux :
    ∀ (fuel n : Nat), n < 10 ^ fuel → digitsToNat (natReprAux fuel n) = n
  | 0, n => by
    intro h
    simp only [pow_zero, Nat.lt_one_iff] at h
    subst h
    rfl
  | fuel + 1, n => by
    intro h
    rw [natReprAux]
    split
    · rename_i h10
      simp only [digitsToNat, List.foldl_cons, List.foldl_nil]
      have := digitVal_digitChar n h10
      omega
    · rename_i h10
      rw [digitsToNat_append_singleton]
      have hdiv : n / 10 < 10 ^ fuel := by
        apply (Nat.div_lt_iff_lt_mul (by norm_num)).mpr
        rw [pow_succ] at h
        exact h
      rw [digitsToNat_natReprAux fuel (n / 10) hdiv,
        digitVal_digitChar _ (Nat.mod_lt _ (by norm_num))]
      omega

theorem digitsToNat_natRepr (n : Nat) : digitsToNat (natRepr n) = n :=
  digitsToNat_natReprAux (n + 1) n
    (lt_of_lt_of_le (Nat.lt_pow_self (by norm_num) n)
      (Nat.pow_le_pow_right (by norm_num) (Nat.le_succ n)))

theorem natRepr_inj {m n : Nat} (h : natRepr m = natRepr n) : m = n := by
  have hm := digitsToNat_natRepr m
  rw [h, digitsToNat_natRepr n] at hm
  exact hm.symm

theorem natRepr_ne_nil (n : Nat) : natRepr n ≠ [] := by
  rw [natRepr, natReprAux]
  split
  · simp
  · simp

theorem numberedName_inj {base ext : List Char} {i j : Nat}
    (h : numberedName base ext i = numberedName base ext j) : i = j := by
  apply natRepr_inj
  simp only [numberedName, List.append_assoc] at h
  have h2 : natRepr i ++ ([')'] ++ ext) = natRepr j ++ ([')'] ++ ext) :=
    List.append_cancel_left (List.append_cancel_left h)
  have hlen : (natRepr i).length = (natRepr j).length := by
    have := congrArg List.length h2
    simp only [List.length_append] at this
    omega
  exact (List.append_inj h2 hlen).1

theorem firstName_ne_numbered (base ext : List Char) (i : Nat) :
    base ++ ext ≠ numberedName base ext i := by
  intro h
  have hlen := congrArg List.length h
  simp only [numberedName, List.length_append] at hlen
  have hr : 0 < (natRepr i).length := List.length_pos.mpr (natRepr_ne_nil i)
  simp at hlen
  omega

theorem pathJoin_inj {folder a b : List Char} (h : pathJoin folder a = pathJoin folder b) :
    a = b := by
  have := List.append_cancel_left h
  injection this

theorem chooseLoop_in_folder (base ext folder : List Char) (ex : List (List Char)) :
    ∀ (fuel i : Nat), ∃ nm, chooseLoop base ext folder ex fuel i = pathJoin folder nm
  | 0, i => ⟨numberedName base ext i, rfl⟩
  | fuel + 1, i => by
    simp only [chooseLoop]
    split
    · exact chooseLoop_in_folder base ext folder ex fuel (i + 1)
    · exact ⟨numberedName base ext i, rfl⟩

theorem chooseLoop_not_mem (base ext folder : List Char) (ex : List (List Char)) :
    ∀ (fuel i : Nat),
      (∃ j, i ≤ j ∧ j < i + fuel ∧ pathJoin folder (numberedName base ext j) ∉ ex) →
      chooseLoop base ext folder ex fuel i ∉ ex
  | 0, i => by
    intro h
    obtain ⟨j, h1, h2, _⟩ := h
    omega
  | fuel + 1, i => by
    intro h
    obtain ⟨j, h1, h2, h3⟩ := h
    simp only [chooseLoop]
    split
    · rename_i hmem
      apply chooseLoop_not_mem base ext folder ex fuel (i + 1)
      refine ⟨j, ?_, by omega, h3⟩
      rcases Nat.eq_or_lt_of_le h1 with rfl | hlt
      · exact absurd hmem h3
      · omega
    · rename_i hmem
      exact hmem

theorem chooseLoop_exact (base ext folder : List Char) (ex : List (List Char)) :
    ∀ (fuel i m : Nat), i ≤ m → m - i ≤ fuel →
      (∀ j, i ≤ j → j < m → pathJoin folder (numberedName base ext j) ∈ ex) →
      pathJoin folder (numberedName base ext m) ∉ ex →
      chooseLoop base ext folder ex fuel i = pathJoin folder (numberedName base ext m)
  | 0, i, m => by
    intro h1 h2 _ _
    have : i = m := by omega
    rw [this]
    rfl
  | fuel + 1, i, m => by
    intro h1 h2 hocc hfree
    simp only [chooseLoop]
    rcases Nat.eq_or_lt_of_le h1 with rfl | hlt
    · rw [if_neg hfree]
    · rw [if_pos (hocc i (Nat.le_refl i) hlt)]
      exact chooseLoop_exact base ext folder ex fuel (i + 1) m (by omega) (by omega)
        (fun j hj1 hj2 => hocc j (by omega) hj2) hfree

theorem exists_free_candidate (base ext folder : List Char) (ex : List (List Char)) :
    ∃ j, 2 ≤ j ∧ j < 2 + (ex.length + 1) ∧
      pathJoin folder (numberedName base ext j) ∉ ex := by
  by_contra hall
  push_neg at hall
  have hsub : (List.range (ex.length + 1)).map
      (fun k => pathJoin folder (numberedName base ext (k + 2))) ⊆ ex := by
    intro x hx
    simp only [List.mem_map, List.mem_range] at hx
    obtain ⟨k, hk, rfl⟩ := hx
    exact hall (k + 2) (by omega) (by omega)
  have hinj : Function.Injective (fun k => pathJoin folder (numberedName base ext (k + 2))) := by
    intro a b hab
    have := numberedName_inj (pathJoin_inj hab)
    omega
  have hnd : ((List.range (ex.length + 1)).map
      (fun k => pathJoin folder (numberedName base ext (k + 2)))).Nodup :=
    (List.nodup_range _).map hinj
  have hle := (List.subperm_of_subset hnd hsub).length_le
  simp only [List.length_map, List.length_range] at hle
  omega

/-- Repeated calls of the resolver, each returned path being claimed
(added to the folder) before the next call, starting from an empty folder. -/
def claimSeq (base ext folder : List Char) : Nat → List (List Char)
  | 0 => []
  | n + 1 =>
    let prev := claimSeq base ext folder n
    prev ++ [choose_unique_filename base ext folder prev]

/-- The path the claim predicts for the k-th call: `base+ext` first, then
`base (2)+ext`, `base (3)+ext`, and so on. -/
def expectedPath (base ext folder : List Char) : Nat → List Char
  | 0 => pathJoin folder (base ++ ext)
  | k + 1 => pathJoin folder (numberedName base ext (k + 2))

theorem expectedPath_inj (base ext folder : List Char) :
    Function.Injective (expectedPath base ext folder) := by
  intro a b hab
  match a, b with
  | 0, 0 => rfl
  | 0, k + 1 =>
    exact absurd (pathJoin_inj hab) (firstName_ne_numbered base ext (k + 2))
  | k + 1, 0 =>
    exact absurd (pathJoin_inj hab.symm) (firstName_ne_numbered base ext (k + 2))
  | k + 1, l + 1 =>
    have := numberedName_inj (pathJoin_inj hab)
    omega

theorem choose_unique_step (base ext folder : List Char) (n : Nat) :
    choose_unique_filename base ext folder
        ((List.range n).map (expectedPath base ext folder))
      = expectedPath base ext folder n := by
  match n with
  | 0 =>
    rw [choose_unique_filename, if_neg (by simp)]
    rfl
  | m + 1 =>
    rw [choose_unique_filename, if_pos]
    · have hlen : ((List.range (m + 1)).map (expectedPath base ext folder)).length = m + 1 := by
        simp
      rw [hlen]
      apply chooseLoop_exact base ext folder _ (m + 2) 2 (m + 2) (by omega) (by omega)
      · intro j hj1 hj2
        obtain ⟨k, rfl⟩ : ∃ k, j = k + 2 := ⟨j - 2, by omega⟩
        refine List.mem_map.mpr ⟨k + 1, List.mem_range.mpr (by omega), rfl⟩
      · intro hmem
        obtain ⟨t, ht, heq⟩ := List.mem_map.mp hmem
        rw [List.mem_range] at ht
        match t with
        | 0 =>
          exact firstName_ne_numbered base ext (m + 2) (pathJoin_inj heq)
        | k + 1 =>
          have := numberedName_inj (pathJoin_inj heq)
          omega
    · exact List.mem_map.mpr ⟨0, List.mem_range.mpr (by omega), rfl⟩

theorem claimSeq_eq_expected (base ext folder : List Char) :
    ∀ n, claimSeq base ext folder n = (List.range n).map (expectedPath base ext folder)
  | 0 => rfl
  | n + 1 => by
    simp only [claimSeq]
    rw [claimSeq_eq_expected base ext folder n, choose_unique_step base ext folder n,
      List.range_succ, List.map_append, List.map_cons, List.map_nil]

/-- C3: the resolver returns a path inside the target folder that is not
among the existing paths, and `n` successive calls (each result claimed
before the next call, starting from an empty folder) return exactly
`base+ext`, `base (2)+ext`, `base (3)+ext`, ... in this order — in
particular `n` pairwise distinct paths. -/
theorem claim3_choose_unique_filename (base ext folder : List Char)
    (ex : List (List Char)) (n : Nat) :
    (choose_unique_filename base ext folder ex ∉ ex ∧
      ∃ nm, choose_unique_filename base ext folder ex = pathJoin folder nm) ∧
    claimSeq base ext folder n = (List.range n).map (expectedPath base ext folder) ∧
    (claimSeq base ext folder n).Nodup := by
  refine ⟨⟨?_, ?_⟩, claimSeq_eq_expected base ext folder n, ?_⟩
  · rw [choose_unique_filename]
    split
    · apply chooseLoop_not_mem
      obtain ⟨j, h1, h2, h3⟩ := exists_free_candidate base ext folder ex
      exact ⟨j, h1, h2, h3⟩
    · rename_i h
      exact h
  · rw [choose_unique_filename]
    split
    · exact chooseLoop_in_folder base ext folder ex _ 2
    · exact ⟨base ++ ext, rfl⟩
  · rw [claimSeq_eq_expected base ext folder n]
    exact (List.nodup_range n).map (expectedPath_inj base ext folder)

/-! ## Extension computation (`os.path.splitext`) -/

/-- Index of the last dot in a file name (Python `p.rfind('.')`), as an
option. -/
def lastDotIdx : List Char → Option Nat
  | [] => none
  | c :: rest =>
    match lastDotIdx rest with
    | some k => some (k + 1)
    | none => if c = '.' then some 0 else none

/-- Model of the extension returned by `os.path.splitext(fname)[1]` for a
bare file name (as produced by `os.walk`, hence without path separators),
following CPython `genericpath._splitext`: split at the last dot, unless
every character before it is a dot (then there is no extension). -/
def splitext_ext (p : List Char) : List Char :=
  match lastDotIdx p with
  | none => []
  | some d => if (p.take d).any (fun c => decide (c ≠ '.')) then p.drop d else []

example : splitext_ext "x.txt".toList = ".txt".toList := by decide
example : splitext_ext "a.b.c".toList = ".c".toList := by decide
example : splitext_ext "foo.".toList = ".".toList := by decide
example : splitext_ext "foo".toList = [] := by decide
example : splitext_ext ".bashrc".toList = [] := by decide
example : splitext_ext "...".toList = [] := by decide

/-- The extension rule exactly as the claim states it: the substring from the
last dot onward, or empty if the name contains no dot. -/
def claimExt (p : List Char) : List Char :=
  if p.contains '.' then
    '.' :: (p.reverse.takeWhile (fun c => decide (c ≠ '.'))).reverse
  else []

theorem lastDotIdx_none : ∀ l : List Char, '.' ∉ l → lastDotIdx l = none
  | [], _ => rfl
  | c :: rest, h => by
    simp only [lastDotIdx]
    rw [lastDotIdx_none rest (fun hm => h (List.mem_cons_of_mem c hm))]
    rw [if_neg (fun hc => h (by subst hc; exact List.mem_cons_self _ _))]

theorem lastDotIdx_append (A B : List Char) (hB : lastDotIdx B = none) :
    lastDotIdx (A ++ '.' :: B) = some A.length := by
  induction A with
  | nil =>
    simp only [List.nil_append, lastDotIdx, hB]
    rfl
  | cons a A' ih =>
    simp only [List.cons_append, lastDotIdx, List.append_eq, ih, List.length_cons]

theorem splitext_ext_no_dot (p : List Char) (h : '.' ∉ p) : splitext_ext p = [] := by
  rw [splitext_ext, lastDotIdx_none p h]

theorem splitext_ext_split (A B : List Char) (hB : ∀ c ∈ B, c ≠ '.') :
    splitext_ext (A ++ '.' :: B)
      = if A.any (fun c => decide (c ≠ '.')) then '.' :: B else [] := by
  have hBn : lastDotIdx B = none := lastDotIdx_none B (fun hm => hB '.' hm rfl)
  rw [splitext_ext, lastDotIdx_append A B hBn]
  simp only [List.take_left, List.drop_left]

/-! ## Filesystem model and the collector (`copy_from_local_folder`)

A directory tree is a list of `Node`s (the entries of `os.scandir`, in
scandir order).  The argument `turned_in` of the collector is `none` when
`os.path.isdir(turned_in_path)` is false (path missing or not a directory),
and `some entries` otherwise. -/

inductive Node where
  | file (name : List Char)
  | dir (name : List Char) (children : List Node)

/-- Names of the regular files among the entries of one directory, in
scandir order (the `files` component that `os.walk` yields for that
directory). -/
def filesHere : List Node → List (List Char)
  | [] => []
  | .file n :: rest => n :: filesHere rest
  | .dir _ _ :: rest => filesHere rest

mutual
/-- File names contributed by one entry when the walk recurses into it: a
regular file contributes nothing here (it was already listed by its parent),
a directory contributes its full subtree. -/
def subWalk : Node → List (List Char)
  | .file _ => []
  | .dir _ cs => filesHere cs ++ subWalks cs

/-- File names contributed by recursing into the subdirectories, in order. -/
def subWalks : List Node → List (List Char)
  | [] => []
  | n :: rest => subWalk n ++ subWalks rest
end

/-- All file names in the subtree of a directory with entries `cs`, in the
top-down order produced by `os.walk`. -/
def walkList (cs : List Node) : List (List Char) := filesHere cs ++ subWalks cs

/-- State of one collector run: the paths existing in the output folder, the
two counters, the destination paths created (in order), and the destination
paths on which header stamping was attempted (in order). -/
structure St where
  ex : List (List Char)
  found : Nat
  copied : Nat
  outputs : List (List Char)
  stamped : List (List Char)
deriving DecidableEq

deriving instance DecidableEq for Except

/-- The body of the inner `for fname in files` loop (source lines 154-165):
count the file, compute its extension, resolve a unique destination, copy
(the destination now exists), optionally stamp the header of a `.docx`
file, count the copy. -/
def processFile (base output : List Char) (hdr : Bool) (st : St) (fname : List Char) :
    St :=
  let ext := splitext_ext fname
  let dest := choose_unique_filename base ext output st.ex
  { ex := st.ex ++ [dest]
    found := st.found + 1
    copied := st.copied + 1
    outputs := st.outputs ++ [dest]
    stamped :=
      if hdr && decide (ext.map Char.toLower = ".docx".toList) then st.stamped ++ [dest]
      else st.stamped }

/-- `safe_prefix`/`safe_suffix` (source lines 127-128): Python
`sanitize_filename(p).strip() if p and p.strip() else ""` for an optional
part `p`. -/
def safePart : Option (List Char) → List Char
  | none => []
  | some p =>
    if !p.isEmpty && !(stripWs p).isEmpty then stripWs (sanitize_filename p) else []

/-- The `if/elif` chain building `base_name` (source lines 131-138). -/
def baseNameOf (pfx sfx : Option (List Char)) (student_name : List Char) : List Char :=
  let sp := safePart pfx
  let ss := safePart sfx
  if sp ≠ [] ∧ ss ≠ [] then sp ++ ' ' :: (student_name ++ ' ' :: ss)
  else if sp ≠ [] then sp ++ ' ' :: student_name
  else if ss ≠ [] then student_name ++ ' ' :: ss
  else student_name

/-- `os.path.isdir(os.path.join(student_dir, a))` together with entering that
subdirectory: the first directory entry named `a`, if any. -/
def findSubdir (a : List Char) : List Node → Option (List Node)
  | [] => none
  | .dir n cs :: rest => if n = a then some cs else findSubdir a rest
  | .file _ :: rest => findSubdir a rest

/-- The files walked for one student (source lines 141-153): with a truthy
(non-`None`, non-empty) selector, the selected subdirectory's subtree or
nothing when the subdirectory is absent (`continue`); otherwise the whole
student subtree. -/
def studentFiles (sel : Option (List Char)) (cs : List Node) :
    Option (List (List Char)) :=
  match sel with
  | some a =>
    if a.isEmpty then some (walkList cs)
    else
      match findSubdir a cs with
      | some cs2 => some (walkList cs2)
      | none => none
  | none => some (walkList cs)

/-- The body of the outer `for entry in os.scandir(turned_in_path)` loop
(source lines 120-165): non-directories are skipped, a student without the
selected assignment subfolder is skipped, otherwise every walked file is
processed. -/
def processStudent (output : List Char) (sel pfx sfx : Option (List Char)) (hdr : Bool)
    (st : St) (entry : Node) : St :=
  match entry with
  | .file _ => st
  | .dir name cs =>
    let student_name := sanitize_filename name
    let base := baseNameOf pfx sfx student_name
    match studentFiles sel cs with
    | none => st
    | some fs => fs.foldl (processFile base output hdr) st

/-- Embedding of `copy_from_local_folder` (source lines 89-166).  `ex0` is
the set of paths already existing in the output folder; an `Except.error`
models the `RuntimeError` raised when the root is missing or not a
directory. -/
def copy_from_local_folder (turned_in : Option (List Node)) (output : List Char)
    (sel pfx sfx : Option (List Char)) (hdr : Bool) (ex0 : List (List Char)) :
    Except (List Char) St :=
  match turned_in with
  | none => .error ("Path does not exist or is not a directory".toList)
  | some entries =>
    .ok (entries.foldl (processStudent output sel pfx sfx hdr)
      { ex := ex0, found := 0, copied := 0, outputs := [], stamped := [] })

example :
    copy_from_local_folder
      (some [Node.dir ("Jane_Doe".toList) [Node.file ("x.txt".toList)],
             Node.dir ("Bob Smith".toList) [Node.file ("x.txt".toList)]])
      ("out".toList) none none none false []
    = .ok { ex := ["out/Jane Doe.txt".toList, "out/Bob Smith.txt".toList],
            found := 2, copied := 2,
            outputs := ["out/Jane Doe.txt".toList, "out/Bob Smith.txt".toList],
            stamped := [] } := by decide

example :
    copy_from_local_folder
      (some [Node.dir ("Jane".toList) [Node.file ("a.txt".toList), Node.file ("b.txt".toList)]])
      ("out".toList) none none none false []
    = .ok { ex := ["out/Jane.txt".toList, "out/Jane (2).txt".toList],
            found := 2, copied := 2,
            outputs := ["out/Jane.txt".toList, "out/Jane (2).txt".toList],
            stamped := [] } := by decide

/-! ### Error handling and counters (claims C5, C9) -/

/-- C5: when the source root does not exist or is not a directory, the
collector signals the configuration error; no run state (and in particular no
copy and no output file) is ever produced in that case, so the output folder
is untouched. -/
theorem claim5_missing_root (output : List Char) (sel pfx sfx : Option (List Char))
    (hdr : Bool) (ex0 : List (List Char)) :
    copy_from_local_folder none output sel pfx sfx hdr ex0
      = .error ("Path does not exist or is not a directory".toList) ∧
    ∀ st : St, copy_from_local_folder none output sel pfx sfx hdr ex0 ≠ .ok st := by
  refine ⟨rfl, ?_⟩
  intro st h
  exact Except.noConfusion h

theorem foldl_processFile_counts (base output : List Char) (hdr : Bool) :
    ∀ (fs : List (List Char)) (st : St),
      (fs.foldl (processFile base output hdr) st).found = st.found + fs.length ∧
      (fs.foldl (processFile base output hdr) st).copied = st.copied + fs.length
  | [], st => by simp
  | f :: fs, st => by
    simp only [List.foldl_cons, List.length_cons]
    have h := foldl_processFile_counts base output hdr fs (processFile base output hdr st f)
    have h1 : (processFile base output hdr st f).found = st.found + 1 := rfl
    have h2 : (processFile base output hdr st f).copied = st.copied + 1 := rfl
    rw [h1, h2] at h
    omega

theorem processStudent_counts (output : List Char) (sel pfx sfx : Option (List Char))
    (hdr : Bool) (st : St) (e : Node) :
    (processStudent output sel pfx sfx hdr st e).found + st.copied
      = (processStudent output sel pfx sfx hdr st e).copied + st.found := by
  cases e with
  | file n => simp only [processStudent]; omega
  | dir n cs =>
    rcases hsf : studentFiles sel cs with _ | fs
    · simp only [processStudent, hsf]; omega
    · simp only [processStudent, hsf]
      have h := foldl_processFile_counts
        (baseNameOf pfx sfx (sanitize_filename n)) output hdr fs st
      omega

theorem foldl_processStudent_counts (output : List Char) (sel pfx sfx : Option (List Char))
    (hdr : Bool) :
    ∀ (entries : List Node) (st : St), st.found = st.copied →
      (entries.foldl (processStudent output sel pfx sfx hdr) st).found
        = (entries.foldl (processStudent output sel pfx sfx hdr) st).copied
  | [], st, h => h
  | e :: es, st, h => by
    simp only [List.foldl_cons]
    apply foldl_processStudent_counts output sel pfx sfx hdr es
    have := processStudent_counts output sel pfx sfx hdr st e
    omega

/-- C9: whenever the collector returns normally, the two counters agree:
every counted discovery is followed by a counted copy in the same
iteration. -/
theorem claim9_found_eq_copied (turned_in : Option (List Node)) (output : List Char)
    (sel pfx sfx : Option (List Char)) (hdr : Bool) (ex0 : List (List Char)) (st : St)
    (h : copy_from_local_folder turned_in output sel pfx sfx hdr ex0 = .ok st) :
    st.found = st.copied := by
  cases turned_in with
  | none => exact Except.noConfusion h
  | some entries =>
    simp only [copy_from_local_folder] at h
    injection h with h'
    subst h'
    exact foldl_processStudent_counts output sel pfx sfx hdr entries _ rfl

/-- Witness for C9 on a concrete one-student, one-file tree. -/
theorem claim9_witness :
    (copy_from_local_folder (some [Node.dir ("A".toList) [Node.file ("x.txt".toList)]])
        ("out".toList) none none none false []
      = .ok { ex := ["out/A.txt".toList], found := 1, copied := 1,
              outputs := ["out/A.txt".toList], stamped := [] }) ∧
    ({ ex := ["out/A.txt".toList], found := 1, copied := 1,
       outputs := ["out/A.txt".toList], stamped := [] } : St).found
      = ({ ex := ["out/A.txt".toList], found := 1, copied := 1,
           outputs := ["out/A.txt".toList], stamped := [] } : St).copied :=
  ⟨by decide,
    claim9_found_eq_copied (some [Node.dir ("A".toList) [Node.file ("x.txt".toList)]])
      ("out".toList) none none none false []
      { ex := ["out/A.txt".toList], found := 1, copied := 1,
        outputs := ["out/A.txt".toList], stamped := [] } (by decide)⟩

/-! ### Assignment selector behaviour (claim C6) -/

theorem isEmpty_false_of_ne_nil {l : List Char} (h : l ≠ []) : l.isEmpty = false := by
  cases l with
  | nil => exact absurd rfl h
  | cons c r => rfl

theorem processStudent_skip (output : List Char) (a : List Char)
    (pfx sfx : Option (List Char)) (hdr : Bool) (st : St) (name : List Char)
    (cs : List Node) (ha : a ≠ []) (hfind : findSubdir a cs = none) :
    processStudent output (some a) pfx sfx hdr st (.dir name cs) = st := by
  simp only [processStudent, studentFiles, isEmpty_false_of_ne_nil ha, hfind]
  simp

/-- C6 (amended): with a non-empty assignment selector, a student folder
without a subdirectory of exactly that name is skipped entirely — removing
that student from the root changes nothing in the collector's result (so the
student contributes zero to both counters and produces no output file) — and
when the subdirectory is present, the files walked for the student are
exactly that subdirectory's full subtree.  (For the empty-string selector the
original claim fails, see the counterexample: Python treats `\"\"` as falsy
and walks the whole student folder instead of skipping.) -/
theorem claim6_selector (a output : List Char) (pfx sfx : Option (List Char))
    (hdr : Bool) (ex0 : List (List Char)) (pre post : List Node) (name : List Char)
    (cs cs2 : List Node) :
    (a ≠ [] → findSubdir a cs = none →
      copy_from_local_folder (some (pre ++ Node.dir name cs :: post)) output (some a)
          pfx sfx hdr ex0
        = copy_from_local_folder (some (pre ++ post)) output (some a) pfx sfx hdr ex0) ∧
    (a ≠ [] → findSubdir a cs = some cs2 →
      studentFiles (some a) cs = some (walkList cs2)) := by
  constructor
  · intro ha hfind
    simp only [copy_from_local_folder]
    rw [List.foldl_append, List.foldl_append, List.foldl_cons,
      processStudent_skip output a pfx sfx hdr _ name cs ha hfind]
  · intro ha hfind
    simp only [studentFiles, isEmpty_false_of_ne_nil ha, hfind]
    simp

/-- Witness for C6 (amended): selector `"Essay"`, one student without an
`"Essay"` subfolder; the run equals the run on the empty root. -/
theorem claim6_witness :
    ("Essay".toList ≠ []) ∧
    (findSubdir ("Essay".toList) [Node.file ("x.txt".toList)] = none) ∧
    copy_from_local_folder
        (some [Node.dir ("Jane".toList) [Node.file ("x.txt".toList)]])
        ("out".toList) (some ("Essay".toList)) none none false []
      = copy_from_local_folder (some ([] : List Node)) ("out".toList)
          (some ("Essay".toList)) none none false [] :=
  ⟨by decide, rfl,
    (claim6_selector ("Essay".toList) ("out".toList) none none false [] [] []
      ("Jane".toList) [Node.file ("x.txt".toList)] []).1 (by decide) rfl⟩

/-- C6 counterexample: with the selector `some \"\"` (an assignment selector
that is given but empty), the student lacks a subdirectory named `\"\"`, yet
the collector does not skip the student: it copies the student's file and
counts found = copied = 1.  Python's `if assignment_subfolder:` treats the
empty string like `None`. -/
theorem claim6_counterexample :
    findSubdir [] [Node.file ("x.txt".toList)] = none ∧
    copy_from_local_folder (some [Node.dir ("Jane".toList) [Node.file ("x.txt".toList)]])
        ("out".toList) (some []) none none false []
      = .ok { ex := ["out/Jane.txt".toList], found := 1, copied := 1,
              outputs := ["out/Jane.txt".toList], stamped := [] } :=
  ⟨rfl, by decide⟩

/-! ### Base-name construction (claim C7) -/

/-- Join a list of parts with single spaces (for the claim's description of
the base name). -/
def joinSp : List (List Char) → List Char
  | [] => []
  | [x] => x
  | x :: y :: rest => x ++ ' ' :: joinSp (y :: rest)

/-- Join the non-empty parts with single spaces. -/
def joinNonEmpty (parts : List (List Char)) : List Char :=
  joinSp (parts.filter (fun x => !x.isEmpty))

/-- An optional part as the amended claim describes it: an absent or
whitespace-only part is omitted, any other part is sanitized and trimmed. -/
def trimmedPart : Option (List Char) → List Char
  | none => []
  | some p => if stripWs p = [] then [] else stripWs (sanitize_filename p)

/-- An optional part as the original claim describes it: sanitized and
trimmed, unconditionally (when given). -/
def claimPart : Option (List Char) → List Char
  | none => []
  | some p => stripWs (sanitize_filename p)

theorem stripWs_nil : stripWs [] = [] := rfl

theorem safePart_eq_trimmedPart (o : Option (List Char)) : safePart o = trimmedPart o := by
  cases o with
  | none => rfl
  | some p =>
    simp only [safePart, trimmedPart]
    by_cases hsp : stripWs p = []
    · rw [if_neg, if_pos hsp]
      intro hc
      rw [Bool.and_eq_true, Bool.not_eq_true', Bool.not_eq_true'] at hc
      simp only [List.isEmpty_eq_false] at hc
      exact hc.2 hsp
    · rw [if_pos, if_neg hsp]
      have hp : p ≠ [] := by
        intro hp
        subst hp
        exact hsp stripWs_nil
      rw [Bool.and_eq_true, Bool.not_eq_true', Bool.not_eq_true',
        List.isEmpty_eq_false, List.isEmpty_eq_false]
      exact ⟨hp, hsp⟩

/-- C7 (amended): the base name equals the join, by single spaces, of the
non-empty parts in the order prefix, student, suffix, where an absent or
whitespace-only prefix/suffix is omitted and any other prefix/suffix is
sanitized and trimmed (the student name, produced by the sanitizer, is never
empty); with prefix "HW1" and suffix "Final" the two students "Jane_Doe" and
"Bob Smith" produce output files "HW1 Jane Doe Final.txt" and
"HW1 Bob Smith Final.txt".  (The original claim's unconditional
sanitize-then-trim reading fails for a whitespace-only prefix, see the
counterexample.) -/
theorem claim7_base_name (pfx sfx : Option (List Char)) (stu : List Char) (h : stu ≠ []) :
    baseNameOf pfx sfx stu = joinNonEmpty [trimmedPart pfx, stu, trimmedPart sfx] ∧
    copy_from_local_folder
        (some [Node.dir ("Jane_Doe".toList) [Node.file ("x.txt".toList)],
               Node.dir ("Bob Smith".toList) [Node.file ("x.txt".toList)]])
        ("out".toList) none (some ("HW1".toList)) (some ("Final".toList)) false []
      = .ok { ex := ["out/HW1 Jane Doe Final.txt".toList,
                     "out/HW1 Bob Smith Final.txt".toList],
              found := 2, copied := 2,
              outputs := ["out/HW1 Jane Doe Final.txt".toList,
                          "out/HW1 Bob Smith Final.txt".toList],
              stamped := [] } := by
  refine ⟨?_, by decide⟩
  rw [← safePart_eq_trimmedPart pfx, ← safePart_eq_trimmedPart sfx]
  simp only [baseNameOf, joinNonEmpty]
  by_cases hsp : safePart pfx = [] <;> by_cases hss : safePart sfx = []
  · rw [if_neg (fun hand => hand.1 hsp), if_neg (fun hne => hne hsp),
      if_neg (fun hne => hne hss)]
    simp [List.filter, hsp, hss, isEmpty_false_of_ne_nil h, joinSp]
  · rw [if_neg (fun hand => hand.1 hsp), if_neg (fun hne => hne hsp), if_pos hss]
    simp [List.filter, hsp, isEmpty_false_of_ne_nil h,
      isEmpty_false_of_ne_nil hss, joinSp]
  · rw [if_neg (fun hand => hand.2 hss), if_pos hsp]
    simp [List.filter, hss, isEmpty_false_of_ne_nil h,
      isEmpty_false_of_ne_nil hsp, joinSp]
  · rw [if_pos ⟨hsp, hss⟩]
    simp [List.filter, isEmpty_false_of_ne_nil h,
      isEmpty_false_of_ne_nil hsp, isEmpty_false_of_ne_nil hss, joinSp]

/-- Witness for C7 (amended) with no prefix and no suffix. -/
theorem claim7_witness :
    ("A".toList ≠ []) ∧
    baseNameOf none none ("A".toList)
      = joinNonEmpty [trimmedPart none, "A".toList, trimmedPart none] :=
  ⟨by decide, (claim7_base_name none none ("A".toList) (by decide)).1⟩

/-- C7 counterexample: for the whitespace-only prefix `" "`, the code omits
the prefix (base name "Jane Doe"), while the claim's rule — sanitize and trim
the prefix, then join the non-empty parts — yields "unnamed Jane Doe",
because sanitizing a whitespace-only string produces the placeholder
"unnamed". -/
theorem claim7_counterexample :
    baseNameOf (some [' ']) none ("Jane Doe".toList)
      ≠ joinNonEmpty [claimPart (some [' ']), "Jane Doe".toList, claimPart none] := by
  decide

/-! ### Extension rule (claim C4) -/

/-- C4 (amended): the extension used to build the destination path is the
substring of the file name from the last dot onward when some character
before that dot is not itself a dot, and the empty string when the name
contains no dot or consists only of dots before its last dot (leading-dot
names such as ".bashrc" get an empty extension); the collector's per-file
step builds the destination with exactly this extension. -/
theorem claim4_extension :
    (∀ p : List Char, '.' ∉ p → splitext_ext p = []) ∧
    (∀ A B : List Char, (∀ c ∈ B, c ≠ '.') →
      splitext_ext (A ++ '.' :: B)
        = if A.any (fun c => decide (c ≠ '.')) then '.' :: B else []) ∧
    (∀ (st : St) (base output : List Char) (hdr : Bool) (f : List Char),
      (processFile base output hdr st f).outputs
        = st.outputs ++ [choose_unique_filename base (splitext_ext f) output st.ex]) :=
  ⟨splitext_ext_no_dot, splitext_ext_split, fun _ _ _ _ _ => rfl⟩

/-- Witness for C4 (amended) at the concrete names "foo" and "foo.txt". -/
theorem claim4_witness :
    ('.' ∉ ("foo".toList) ∧ splitext_ext ("foo".toList) = []) ∧
    ((∀ c ∈ ("txt".toList), c ≠ '.') ∧
      splitext_ext ("foo".toList ++ '.' :: "txt".toList)
        = if ("foo".toList).any (fun c => decide (c ≠ '.')) then '.' :: "txt".toList
          else []) :=
  ⟨⟨by decide, claim4_extension.1 ("foo".toList) (by decide)⟩,
   ⟨by decide, claim4_extension.2.1 ("foo".toList) ("txt".toList) (by decide)⟩⟩

/-- C4 counterexample: the file name ".bashrc" contains a dot, so by the
claim the extension would be ".bashrc" (the substring from the last dot
onward), but `os.path.splitext` yields the empty extension. -/
theorem claim4_counterexample :
    splitext_ext (".bashrc".toList) = [] ∧
    claimExt (".bashrc".toList) = ".bashrc".toList ∧
    splitext_ext (".bashrc".toList) ≠ claimExt (".bashrc".toList) :=
  ⟨by decide, by decide, by decide⟩

/-! ### Case-insensitive rich-text extension test (claim C10) -/

theorem toNat_ofNat_small (n : Nat) (h : n < 55296) : (Char.ofNat n).toNat = n := by
  have hv : n.isValidChar := Or.inl h
  rw [Char.ofNat, dif_pos hv]
  rfl

theorem char_eq_of_toNat_eq {c d : Char} (h : c.toNat = d.toNat) : c = d :=
  Char.eq_of_val_eq (UInt32.toNat.inj h)

theorem toLower_eq_nonletter {c t : Char} (ht : t.toNat < 97) (h : c.toLower = t) :
    c = t := by
  simp only [Char.toLower] at h
  split at h
  · rename_i hc
    have := congrArg Char.toNat h
    rw [toNat_ofNat_small (c.toNat + 32) (by omega)] at this
    omega
  · exact h

theorem toLower_eq_letter {c lo up : Char} (hup : up.toNat + 32 = lo.toNat)
    (h : c.toLower = lo) : c = lo ∨ c = up := by
  simp only [Char.toLower] at h
  split at h
  · rename_i hc
    right
    have := congrArg Char.toNat h
    rw [toNat_ofNat_small (c.toNat + 32) (by omega)] at this
    exact char_eq_of_toNat_eq (by omega)
  · exact Or.inl h

/-- The sixteen spellings of the rich-text document extension that lowercase
to ".docx" (the dot has no case; Unicode offers no other character that
lowercases into "docx"). -/
def docxVariants : List (List Char) :=
  [".docx".toList, ".docX".toList, ".doCx".toList, ".doCX".toList,
   ".dOcx".toList, ".dOcX".toList, ".dOCx".toList, ".dOCX".toList,
   ".Docx".toList, ".DocX".toList, ".DoCx".toList, ".DoCX".toList,
   ".DOcx".toList, ".DOcX".toList, ".DOCx".toList, ".DOCX".toList]

theorem lower_eq_docx_iff (e : List Char) :
    e.map Char.toLower = ".docx".toList ↔ e ∈ docxVariants := by
  constructor
  · intro h
    rcases e with _ | ⟨c1, _ | ⟨c2, _ | ⟨c3, _ | ⟨c4, _ | ⟨c5, _ | ⟨c6, rest⟩⟩⟩⟩⟩⟩ <;>
      simp only [List.map_nil, List.map_cons] at h
    · exact absurd h (by decide)
    · exact absurd h (by simp)
    · exact absurd h (by simp)
    · exact absurd h (by simp)
    · exact absurd h (by simp)
    · simp only [show (".docx".toList) = ['.', 'd', 'o', 'c', 'x'] from rfl,
        List.cons.injEq, and_true] at h
      obtain ⟨h1, h2, h3, h4, h5⟩ := h
      have e1 := @toLower_eq_nonletter c1 '.' (by decide) h1
      have e2 := @toLower_eq_letter c2 'd' 'D' (by decide) h2
      have e3 := @toLower_eq_letter c3 'o' 'O' (by decide) h3
      have e4 := @toLower_eq_letter c4 'c' 'C' (by decide) h4
      have e5 := @toLower_eq_letter c5 'x' 'X' (by decide) h5
      subst e1
      rcases e2 with rfl | rfl <;> rcases e3 with rfl | rfl <;>
        rcases e4 with rfl | rfl <;> rcases e5 with rfl | rfl <;> decide
    · exact absurd h (by simp)
  · intro h
    fin_cases h <;> decide

/-- C10: with header stamping enabled, the per-file step of the collector
attempts stamping exactly for the extensions whose lowercasing is ".docx" —
the sixteen case variants of ".docx", e.g. ".DOCX" and ".Docx", and no other
extension; with stamping disabled it never stamps. -/
theorem claim10_docx_case_insensitive (st : St) (base output f : List Char) :
    ((processFile base output true st f).stamped ≠ st.stamped
      ↔ splitext_ext f ∈ docxVariants) ∧
    (processFile base output false st f).stamped = st.stamped := by
  refine ⟨⟨?_, ?_⟩, by simp [processFile]⟩
  · intro hne
    by_contra hnotmem
    apply hne
    have hd : ¬ (List.map Char.toLower (splitext_ext f) = ['.', 'd', 'o', 'c', 'x']) :=
      fun hh => hnotmem ((lower_eq_docx_iff _).mp hh)
    simp [processFile, hd]
  · intro hmem
    have hd := (lower_eq_docx_iff _).mpr hmem
    simp only [processFile, Bool.true_and, hd]
    intro hh
    have := congrArg List.length hh
    simp only [decide_eq_true_eq, if_true] at hh
    have hlen := congrArg List.length hh
    simp only [List.length_append, List.length_cons, List.length_nil] at hlen
    omega

/-! ## Assignment discovery (`collect_assignment_subfolders`, claim C8) -/

/-- Names of the immediate child directories of one student folder
(`if sub.is_dir(): names.add(sub.name)`, source lines 179-181). -/
def childDirNames : List Node → List (List Char)
  | [] => []
  | .dir n _ :: rest => n :: childDirNames rest
  | .file _ :: rest => childDirNames rest

/-- Child-directory names contributed by one root entry: non-directories are
skipped, and a student whose listing raises `PermissionError` (modelled by
the `denied` predicate on the student folder name) contributes nothing. -/
def studentContrib (denied : List Char → Bool) : Node → List (List Char)
  | .file _ => []
  | .dir n cs => if denied n then [] else childDirNames cs

/-- Python string comparison (code-point lexicographic), as used by
`sorted`. -/
def lexLe : List Char → List Char → Bool
  | [], _ => true
  | _ :: _, [] => false
  | a :: as, b :: bs => if a = b then lexLe as bs else decide (a < b)

/-- Insertion into a sorted list. -/
def insertSorted (x : List Char) : List (List Char) → List (List Char)
  | [] => [x]
  | y :: ys => if lexLe x y then x :: y :: ys else y :: insertSorted x ys

/-- Insertion sort of a list of names; extensionally Python `sorted`. -/
def sortNames (l : List (List Char)) : List (List Char) := l.foldr insertSorted []

/-- Embedding of `collect_assignment_subfolders` (source lines 169-184):
scan the student folders one level deep, collect the distinct child
directory names into a set, and return them sorted (`sorted(set(...))` is
modelled as sorting the deduplicated list). -/
def collect_assignment_subfolders (turned_in : Option (List Node))
    (denied : List Char → Bool) : List (List Char) :=
  match turned_in with
  | none => []
  | some entries => sortNames ((entries.flatMap (studentContrib denied)).dedup)

theorem lexLe_total : ∀ a b : List Char, lexLe a b = true ∨ lexLe b a = true
  | [], _ => Or.inl rfl
  | _ :: _, [] => Or.inr rfl
  | a :: as, b :: bs => by
    simp only [lexLe]
    by_cases hab : a = b
    · subst hab
      rw [if_pos rfl, if_pos rfl]
      exact lexLe_total as bs
    · rw [if_neg hab, if_neg (Ne.symm hab)]
      rcases lt_trichotomy a b with h | h | h
      · exact Or.inl (decide_eq_true h)
      · exact absurd h hab
      · exact Or.inr (decide_eq_true h)

theorem lexLe_trans :
    ∀ a b c : List Char, lexLe a b = true → lexLe b c = true → lexLe a c = true
  | [], _, _, _, _ => rfl
  | _ :: _, [], _, h, _ => by simp [lexLe] at h
  | _ :: _, _ :: _, [], _, h => by simp [lexLe] at h
  | a :: as, b :: bs, c :: cs, h1, h2 => by
    simp only [lexLe] at h1 h2 ⊢
    by_cases hab : a = b <;> by_cases hbc : b = c
    · subst hab; subst hbc
      rw [if_pos rfl] at h1 h2 ⊢
      exact lexLe_trans as bs cs h1 h2
    · subst hab
      rw [if_neg hbc] at h2 ⊢
      exact h2
    · subst hbc
      rw [if_neg hab] at h1 ⊢
      exact h1
    · rw [if_neg hab] at h1
      rw [if_neg hbc] at h2
      have hac : a < c := lt_trans (of_decide_eq_true h1) (of_decide_eq_true h2)
      rw [if_neg (ne_of_lt hac)]
      exact decide_eq_true hac

theorem mem_insertSorted (x : List Char) :
    ∀ (l : List (List Char)) (y : List Char), y ∈ insertSorted x l ↔ y = x ∨ y ∈ l
  | [], y => by simp [insertSorted]
  | z :: zs, y => by
    simp only [insertSorted]
    split
    · rw [List.mem_cons]
    · rw [List.mem_cons, mem_insertSorted x zs y, List.mem_cons]
      tauto

theorem pairwise_insertSorted (x : List Char) :
    ∀ l, List.Pairwise (fun a b => lexLe a b = true) l →
      List.Pairwise (fun a b => lexLe a b = true) (insertSorted x l)
  | [], _ => by simp [insertSorted]
  | y :: ys, h => by
    simp only [insertSorted]
    rw [List.pairwise_cons] at h
    obtain ⟨hy, hys⟩ := h
    split
    · rename_i hxy
      rw [List.pairwise_cons]
      refine ⟨?_, List.pairwise_cons.mpr ⟨hy, hys⟩⟩
      intro z hz
      rcases List.mem_cons.mp hz with rfl | hz'
      · exact hxy
      · exact lexLe_trans x y z hxy (hy z hz')
    · rename_i hxy
      rw [List.pairwise_cons]
      refine ⟨?_, pairwise_insertSorted x ys hys⟩
      intro z hz
      rcases (mem_insertSorted x ys z).mp hz with rfl | hz'
      · rcases lexLe_total z y with h | h
        · exact absurd h hxy
        · exact h
      · exact hy z hz'

theorem nodup_insertSorted (x : List Char) :
    ∀ l, x ∉ l → l.Nodup → (insertSorted x l).Nodup
  | [], _, _ => by simp [insertSorted]
  | y :: ys, hx, hnd => by
    simp only [insertSorted]
    rw [List.nodup_cons] at hnd
    split
    · rw [List.nodup_cons]
      exact ⟨hx, List.nodup_cons.mpr hnd⟩
    · rw [List.nodup_cons]
      constructor
      · intro hy
        rcases (mem_insertSorted x ys y).mp hy with heq | hy'
        · exact hx (heq ▸ List.mem_cons_self y ys)
        · exact hnd.1 hy'
      · exact nodup_insertSorted x ys (fun hm => hx (List.mem_cons_of_mem _ hm)) hnd.2

theorem sortNames_pairwise :
    ∀ l, List.Pairwise (fun a b => lexLe a b = true) (sortNames l)
  | [] => List.Pairwise.nil
  | x :: xs => by
    simp only [sortNames, List.foldr_cons]
    exact pairwise_insertSorted x _ (sortNames_pairwise xs)

theorem mem_sortNames : ∀ (l : List (List Char)) (y : List Char), y ∈ sortNames l ↔ y ∈ l
  | [], y => Iff.rfl
  | x :: xs, y => by
    simp only [sortNames, List.foldr_cons]
    rw [mem_insertSorted]
    rw [show (List.foldr insertSorted [] xs) = sortNames xs from rfl, mem_sortNames xs y,
      List.mem_cons]

theorem sortNames_nodup : ∀ l, l.Nodup → (sortNames l).Nodup
  | [], _ => List.Pairwise.nil
  | x :: xs, h => by
    rw [List.nodup_cons] at h
    simp only [sortNames, List.foldr_cons]
    exact nodup_insertSorted x _
      (fun hm => h.1 ((mem_sortNames xs x).mp hm)) (sortNames_nodup xs h.2)

/-- C8: assignment discovery returns the sorted, deduplicated list of the
immediate child directory names one level below the student folders; it
returns the empty list when the root is missing or not a directory; a
student whose children cannot be listed (permission error) contributes
nothing; on child folders Essay / Essay, Quiz across two students it returns
exactly ["Essay", "Quiz"]. -/
theorem claim8_collect_assignment_subfolders (denied : List Char → Bool)
    (t : Option (List Node)) (entries pre post : List Node) (name : List Char)
    (cs : List Node) (x : List Char) :
    (collect_assignment_subfolders none denied = []) ∧
    List.Pairwise (fun a b => lexLe a b = true)
      (collect_assignment_subfolders t denied) ∧
    (collect_assignment_subfolders t denied).Nodup ∧
    (x ∈ collect_assignment_subfolders (some entries) denied ↔
      ∃ e, e ∈ entries ∧ x ∈ studentContrib denied e) ∧
    (denied name = true →
      collect_assignment_subfolders (some (pre ++ Node.dir name cs :: post)) denied
        = collect_assignment_subfolders (some (pre ++ post)) denied) ∧
    collect_assignment_subfolders
        (some [Node.dir ("A".toList) [Node.dir ("Essay".toList) []],
               Node.dir ("B".toList)
                 [Node.dir ("Essay".toList) [], Node.dir ("Quiz".toList) []]])
        (fun _ => false)
      = ["Essay".toList, "Quiz".toList] := by
  refine ⟨rfl, ?_, ?_, ?_, ?_, by decide⟩
  · cases t with
    | none => exact List.Pairwise.nil
    | some es => exact sortNames_pairwise _
  · cases t with
    | none => exact List.Pairwise.nil
    | some es => exact sortNames_nodup _ (List.nodup_dedup _)
  · rw [collect_assignment_subfolders, mem_sortNames, List.mem_dedup, List.mem_flatMap]
  · intro hden
    simp only [collect_assignment_subfolders, List.flatMap_append, List.flatMap_cons]
    have : studentContrib denied (Node.dir name cs) = [] := by
      simp [studentContrib, hden]
    rw [this, List.nil_append]

/-- Witness for C8: a student whose listing is permission-denied contributes
nothing to the discovered set. -/
theorem claim8_witness :
    ((fun n => decide (n = "B".toList)) ("B".toList) = true) ∧
    collect_assignment_subfolders
        (some ([Node.dir ("A".toList) [Node.dir ("Essay".toList) []]] ++
          Node.dir ("B".toList) [Node.dir ("Quiz".toList) []] :: []))
        (fun n => decide (n = "B".toList))
      = collect_assignment_subfolders
          (some ([Node.dir ("A".toList) [Node.dir ("Essay".toList) []]] ++ []))
          (fun n => decide (n = "B".toList)) :=
  ⟨by decide,
    (claim8_collect_assignment_subfolders (fun n => decide (n = "B".toList)) none []
      [Node.dir ("A".toList) [Node.dir ("Essay".toList) []]] [] ("B".toList)
      [Node.dir ("Quiz".toList) []] []).2.2.2.2.1 (by decide)⟩
